import Mathlib

/-!
# Shallow embedding of the pond event core and gap-fill processor

Source files embedded here:
* `src/src/pond/lib/event.js` — the `Event` class (point events) together with
  the grouping/reduction statics `merge`, `combine`, `map`, `reduce`.
* `src/src/filler.js` — the `Filler` processor (zero / pad / linear fill).

Conventions of the embedding:
* JavaScript numbers are modelled as `ℚ` (plus a separate `nan` value, since
  `NaN` is "missing" for this library); timestamps are `Int` milliseconds.
* An `Immutable.Map` is modelled as an insertion-ordered association list
  `List (String × JSVal)`; `Immutable.fromJS` deep conversion is the identity
  here because plain objects and immutable maps share one representation.
* Fallible code returns `Except JSError _`.
* Classes imported by `event.js` but not present under `src/`
  (`IndexedEvent`, `TimeRangeEvent`, `TimeRange`, `util`) are modelled from
  the spec where noted.
-/

namespace Pond

/-- The immutable value tree: scalar (number / NaN / string / boolean /
null / undefined), ordered list, or insertion-ordered string-keyed mapping. -/
inductive JSVal where
  | num (q : ℚ)
  | nan
  | str (s : String)
  | bool (b : Bool)
  | null
  | undefv
  | list (xs : List JSVal)
  | map (entries : List (String × JSVal))
  deriving Repr, Inhabited

mutual

/-- Structural decidable equality for `JSVal` (the nested inductive defeats
the automatic deriving handler in this toolchain). -/
def JSVal.decEq : (a b : JSVal) → Decidable (a = b)
  | .num x, .num y =>
      if h : x = y then .isTrue (by rw [h])
      else .isFalse (by intro he; cases he; exact h rfl)
  | .nan, .nan => .isTrue rfl
  | .str x, .str y =>
      if h : x = y then .isTrue (by rw [h])
      else .isFalse (by intro he; cases he; exact h rfl)
  | .bool x, .bool y =>
      if h : x = y then .isTrue (by rw [h])
      else .isFalse (by intro he; cases he; exact h rfl)
  | .null, .null => .isTrue rfl
  | .undefv, .undefv => .isTrue rfl
  | .list xs, .list ys =>
      match JSVal.decEqL xs ys with
      | .isTrue h => .isTrue (by rw [h])
      | .isFalse h => .isFalse (by intro he; cases he; exact h rfl)
  | .map m, .map m' =>
      match JSVal.decEqE m m' with
      | .isTrue h => .isTrue (by rw [h])
      | .isFalse h => .isFalse (by intro he; cases he; exact h rfl)
  | .num _, .nan => .isFalse fun h => JSVal.noConfusion h
  | .num _, .str _ => .isFalse fun h => JSVal.noConfusion h
  | .num _, .bool _ => .isFalse fun h => JSVal.noConfusion h
  | .num _, .null => .isFalse fun h => JSVal.noConfusion h
  | .num _, .undefv => .isFalse fun h => JSVal.noConfusion h
  | .num _, .list _ => .isFalse fun h => JSVal.noConfusion h
  | .num _, .map _ => .isFalse fun h => JSVal.noConfusion h
  | .nan, .num _ => .isFalse fun h => JSVal.noConfusion h
  | .nan, .str _ => .isFalse fun h => JSVal.noConfusion h
  | .nan, .bool _ => .isFalse fun h => JSVal.noConfusion h
  | .nan, .null => .isFalse fun h => JSVal.noConfusion h
  | .nan, .undefv => .isFalse fun h => JSVal.noConfusion h
  | .nan, .list _ => .isFalse fun h => JSVal.noConfusion h
  | .nan, .map _ => .isFalse fun h => JSVal.noConfusion h
  | .str _, .num _ => .isFalse fun h => JSVal.noConfusion h
  | .str _, .nan => .isFalse fun h => JSVal.noConfusion h
  | .str _, .bool _ => .isFalse fun h => JSVal.noConfusion h
  | .str _, .null => .isFalse fun h => JSVal.noConfusion h
  | .str _, .undefv => .isFalse fun h => JSVal.noConfusion h
  | .str _, .list _ => .isFalse fun h => JSVal.noConfusion h
  | .str _, .map _ => .isFalse fun h => JSVal.noConfusion h
  | .bool _, .num _ => .isFalse fun h => JSVal.noConfusion h
  | .bool _, .nan => .isFalse fun h => JSVal.noConfusion h
  | .bool _, .str _ => .isFalse fun h => JSVal.noConfusion h
  | .bool _, .null => .isFalse fun h => JSVal.noConfusion h
  | .bool _, .undefv => .isFalse fun h => JSVal.noConfusion h
  | .bool _, .list _ => .isFalse fun h => JSVal.noConfusion h
  | .bool _, .map _ => .isFalse fun h => JSVal.noConfusion h
  | .null, .num _ => .isFalse fun h => JSVal.noConfusion h
  | .null, .nan => .isFalse fun h => JSVal.noConfusion h
  | .null, .str _ => .isFalse fun h => JSVal.noConfusion h
  | .null, .bool _ => .isFalse fun h => JSVal.noConfusion h
  | .null, .undefv => .isFalse fun h => JSVal.noConfusion h
  | .null, .list _ => .isFalse fun h => JSVal.noConfusion h
  | .null, .map _ => .isFalse fun h => JSVal.noConfusion h
  | .undefv, .num _ => .isFalse fun h => JSVal.noConfusion h
  | .undefv, .nan => .isFalse fun h => JSVal.noConfusion h
  | .undefv, .str _ => .isFalse fun h => JSVal.noConfusion h
  | .undefv, .bool _ => .isFalse fun h => JSVal.noConfusion h
  | .undefv, .null => .isFalse fun h => JSVal.noConfusion h
  | .undefv, .list _ => .isFalse fun h => JSVal.noConfusion h
  | .undefv, .map _ => .isFalse fun h => JSVal.noConfusion h
  | .list _, .num _ => .isFalse fun h => JSVal.noConfusion h
  | .list _, .nan => .isFalse fun h => JSVal.noConfusion h
  | .list _, .str _ => .isFalse fun h => JSVal.noConfusion h
  | .list _, .bool _ => .isFalse fun h => JSVal.noConfusion h
  | .list _, .null => .isFalse fun h => JSVal.noConfusion h
  | .list _, .undefv => .isFalse fun h => JSVal.noConfusion h
  | .list _, .map _ => .isFalse fun h => JSVal.noConfusion h
  | .map _, .num _ => .isFalse fun h => JSVal.noConfusion h
  | .map _, .nan => .isFalse fun h => JSVal.noConfusion h
  | .map _, .str _ => .isFalse fun h => JSVal.noConfusion h
  | .map _, .bool _ => .isFalse fun h => JSVal.noConfusion h
  | .map _, .null => .isFalse fun h => JSVal.noConfusion h
  | .map _, .undefv => .isFalse fun h => JSVal.noConfusion h
  | .map _, .list _ => .isFalse fun h => JSVal.noConfusion h

/-- Decidable equality for lists of values. -/
def JSVal.decEqL : (xs ys : List JSVal) → Decidable (xs = ys)
  | [], [] => .isTrue rfl
  | [], _ :: _ => .isFalse fun h => List.noConfusion h
  | _ :: _, [] => .isFalse fun h => List.noConfusion h
  | x :: xs, y :: ys =>
      match JSVal.decEq x y, JSVal.decEqL xs ys with
      | .isTrue h1, .isTrue h2 => .isTrue (by rw [h1, h2])
      | .isFalse h1, _ => .isFalse (by intro he; cases he; exact h1 rfl)
      | _, .isFalse h2 => .isFalse (by intro he; cases he; exact h2 rfl)

/-- Decidable equality for entry lists. -/
def JSVal.decEqE : (xs ys : List (String × JSVal)) → Decidable (xs = ys)
  | [], [] => .isTrue rfl
  | [], _ :: _ => .isFalse fun h => List.noConfusion h
  | _ :: _, [] => .isFalse fun h => List.noConfusion h
  | (k, v) :: xs, (k', v') :: ys =>
      match String.decEq k k', JSVal.decEq v v', JSVal.decEqE xs ys with
      | .isTrue h0, .isTrue h1, .isTrue h2 => .isTrue (by rw [h0, h1, h2])
      | .isFalse h0, _, _ => .isFalse (by intro he; cases he; exact h0 rfl)
      | _, .isFalse h1, _ => .isFalse (by intro he; cases he; exact h1 rfl)
      | _, _, .isFalse h2 => .isFalse (by intro he; cases he; exact h2 rfl)

end

instance : DecidableEq JSVal := JSVal.decEq

/-- Event data: an insertion-ordered mapping from field name to value. -/
abbrev JSMap := List (String × JSVal)

/-- First-match association-list lookup (`Immutable.Map.get` / `_.has`). -/
def lookupA {α : Type} : List (String × α) → String → Option α
  | [], _ => none
  | (k', v) :: rest, k => if k' = k then some v else lookupA rest k

/-- `Immutable.Map.set`: replace in place when the key exists (keeping its
position), otherwise append the new entry at the end. -/
def setKey {α : Type} : List (String × α) → String → α → List (String × α)
  | [], k, v => [(k, v)]
  | (k', v') :: rest, k, v =>
      if k' = k then (k', v) :: rest else (k', v') :: setKey rest k v

/-- The JS idiom `if (!m[k]) m[k] = []; m[k].push(a)` on an object whose
values are arrays: append `a` to the list at `k`, creating it if absent. -/
def assocAppend {α : Type} : List (String × List α) → String → α → List (String × List α)
  | [], k, a => [(k, [a])]
  | (k', xs) :: rest, k, a =>
      if k' = k then (k', xs ++ [a]) :: rest else (k', xs) :: assocAppend rest k a

/-- `Immutable.getIn` on a value: walk the path; `none` models JS
`undefined` (absent path or a non-map intermediate). -/
def getInV : JSVal → List String → Option JSVal
  | v, [] => some v
  | .map m, k :: rest =>
      match lookupA m k with
      | some v => getInV v rest
      | none => none
  | _, _ :: _ => none

/-- `Immutable.Map.getIn` on event data. -/
def getIn (m : JSMap) (p : List String) : Option JSVal :=
  getInV (.map m) p

/-- `Immutable.Map.hasIn`. -/
def hasIn (m : JSMap) (p : List String) : Bool :=
  (getIn m p).isSome

/-- Build the nested maps `Immutable.setIn` creates along a missing path. -/
def buildNested : List String → JSVal → JSVal
  | [], v => v
  | k :: rest, v => .map [(k, buildNested rest v)]

/-- `Immutable.setIn` on a value: copy-on-write along the path, creating
intermediate maps where the path does not exist. -/
def setInV : JSVal → List String → JSVal → JSVal
  | _, [], v => v
  | .map m, k :: rest, v =>
      (match lookupA m k with
       | some w => .map (setKey m k (setInV w rest v))
       | none => .map (setKey m k (buildNested rest v)))
  | _, k :: rest, v => .map [(k, buildNested rest v)]

/-- `Immutable.Map.setIn` on event data. -/
def setIn (m : JSMap) (p : List String) (v : JSVal) : JSMap :=
  match setInV (.map m) p v with
  | .map m' => m'
  | _ => m

/-- Modelled from the spec: `util.isMissing` (the `util` module is not under
`src/`). §4.1: true for absent (undefined), null and not-a-number; false
otherwise, including 0 and the empty string. -/
def isMissing : Option JSVal → Bool
  | none => true
  | some .undefv => true
  | some .null => true
  | some .nan => true
  | some _ => false

/-- `Immutable.Map.merge` (shallow): take each entry of the second map in
order and set it on the first. -/
def mergeShallow (m1 m2 : JSMap) : JSMap :=
  m2.foldl (fun acc kv => setKey acc kv.1 kv.2) m1

mutual

/-- Deep merge written after the spec's words ("recursive inside nested
mappings ... fields from later events overwriting fields from earlier
events on conflict"), for comparison with the source's shallow
`Immutable.Map.merge`. -/
def deepMergeV : JSVal → JSVal → JSVal
  | .map m1, .map m2 => .map (deepMergeE m1 m2)
  | _, v2 => v2

/-- Entry-list worker for `deepMergeV`: fold the later map's entries into
the earlier map, recursing where both sides hold mappings. -/
def deepMergeE : List (String × JSVal) → List (String × JSVal) → List (String × JSVal)
  | m1, [] => m1
  | m1, (k, v) :: rest =>
      deepMergeE
        (setKey m1 k (match lookupA m1 k with
                      | some w => deepMergeV w v
                      | none => v))
        rest

end

mutual

/-- Modelled from the spec: `util.generatePaths` (the `util` module is not
under `src/`). §4.1 `enumeratePaths`: "produce every leaf field path
present, used when no field spec is given". A leaf is any non-mapping
value. -/
def leafPaths : JSVal → List (List String)
  | .map m => leafPathsE m
  | _ => [[]]

/-- Entry-list worker for `leafPaths`. -/
def leafPathsE : List (String × JSVal) → List (List String)
  | [] => []
  | (k, v) :: rest => (leafPaths v).map (k :: ·) ++ leafPathsE rest

end

/-- Modelled from the spec: `util.generatePaths` applied to event data. -/
def generatePaths (m : JSMap) : List (List String) :=
  leafPathsE m

/-- Split a character list on a separator (the semantics of JS
`String.split` on a one-character separator, written over `List Char` so
that it evaluates by kernel reduction). -/
def splitOnChar (sep : Char) : List Char → List (List Char)
  | [] => [[]]
  | c :: rest =>
      if c = sep then [] :: splitOnChar sep rest
      else
        match splitOnChar sep rest with
        | [] => [[c]]
        | g :: gs => (c :: g) :: gs

/-- Modelled from the spec: `util.fieldPathToArray` on a string argument
(§3 field path: "a single dot-separated string"). -/
def fieldPathToArray (s : String) : List String :=
  (splitOnChar '.' s.data).map (fun cs => String.mk cs)

/-- Decimal digits to a natural number (no validity check: every string
reaching this point is `toString` of an integer). -/
def digitsToNat : List Char → Nat → Nat
  | [], acc => acc
  | c :: rest, acc => digitsToNat rest (acc * 10 + (c.toNat - 48))

/-- JS unary `+` on the decimal integer strings that occur as group keys
(they are always `String(n)` for an integer `n`, on which `+` is exact
integer parsing). -/
def jsStringToInt (s : String) : Int :=
  match s.data with
  | Char.mk 45 _ :: rest => - (Int.ofNat (digitsToNat rest 0))
  | cs => Int.ofNat (digitsToNat cs 0)

/-! ## Event variants

Only `Event` (point events) is under `src/`. `IndexedEvent` and
`TimeRangeEvent` are collaborators whose accessors (`index()`,
`timerange().begin()`, `timerange().end()`, `data()`, `setData()`) are
modelled from the spec (§3 table of temporal identities and group keys,
§4.2 accessors). The `utc` flag of `IndexedEvent` plays no role in any
claim and is omitted. Event data that is an `Immutable.List` at the root
(possible in JS by constructing from an array) is outside this model;
event data is always a mapping here, as in the spec's data model (§3:
"a *data* Value (a mapping)"). -/

/-- The closed sum of the three event variants. -/
inductive EventAny where
  | point (t : Int) (d : JSMap)
  | indexed (idx : String) (d : JSMap)
  | timerange (b e : Int) (d : JSMap)
  deriving Repr, DecidableEq, Inhabited

/-- Tag distinguishing the three variants (the `typeMap` entries of
`merge`/`combine` store the class object; this is its image). -/
inductive Variant where
  | pointV
  | indexedV
  | rangeV
  deriving Repr, DecidableEq, Inhabited

/-- The temporal identity of an event, which `setData` must preserve. -/
inductive EventIdentity where
  | time (t : Int)
  | range (b e : Int)
  | index (s : String)
  deriving Repr, DecidableEq, Inhabited

/-- `event.data()`. -/
def dataOf : EventAny → JSMap
  | .point _ d => d
  | .indexed _ d => d
  | .timerange _ _ d => d

/-- The variant tag of an event (`instanceof` dispatch). -/
def variantOf : EventAny → Variant
  | .point _ _ => .pointV
  | .indexed _ _ => .indexedV
  | .timerange _ _ _ => .rangeV

/-- The temporal identity of an event. -/
def identityOf : EventAny → EventIdentity
  | .point t _ => .time t
  | .indexed s _ => .index s
  | .timerange b e _ => .range b e

/-- Replace the data of an event, keeping its identity (the common core of
each variant's `setData` once the argument has been converted). -/
def withData : EventAny → JSMap → EventAny
  | .point t _, d => .point t d
  | .indexed s _, d => .indexed s d
  | .timerange b e _, d => .timerange b e d

/-- The group key used by `merge`/`combine`. JS object keys are strings,
so the point key is `String(e.timestamp().getTime())`; the interval key is
the template string built from begin and end (spec §3: "`"<begin>,<end>"`
string of integer milliseconds" — `TimeRange` is not under `src/`); the
indexed key is the index string itself. -/
def keyOf : EventAny → String
  | .point t _ => toString t
  | .indexed s _ => s
  | .timerange b e _ => s!"{b},{e}"

/-! ## Errors -/

/-- The error kinds of §7. The source throws bare `Error`s; the spec names
them. `typeError` stands for a genuine JavaScript `TypeError` raised at
runtime (reading a property of `undefined`), which is none of the three
specified kinds. -/
inductive JSError where
  | invalidArgument (msg : String)
  | invalidConfig (msg : String)
  | heterogeneousGroup (key : String)
  | typeError (msg : String)
  deriving Repr, DecidableEq

/-! ## Event construction helpers -/

/-- The shapes a caller can pass as event data (`dataFromArg`'s argument).
Array arguments (which `Immutable.fromJS` would turn into a root-level
list) are outside this model; see the note on `EventAny`. -/
inductive DataArg where
  | obj (m : JSMap)
  | num (q : ℚ)
  | nanArg
  | str (s : String)
  | boolArg (b : Bool)
  | nullArg
  | undefArg
  deriving Repr, DecidableEq

/-- `dataFromArg` of `event.js`: an object is deep-converted by
`Immutable.fromJS` (the identity here); a number or string — and `NaN`,
for which `_.isNumber` is true — is wrapped as `{value: v}`; anything
else throws. -/
def dataFromArg : DataArg → Except JSError JSMap
  | .obj m => .ok m
  | .num q => .ok [("value", .num q)]
  | .nanArg => .ok [("value", .nan)]
  | .str s => .ok [("value", .str s)]
  | _ => .error (.invalidArgument "Unable to interpret event data")

/-- `Event.setData` (and, modelled from the spec §4.2, the analogous method
of the other two variants): convert the argument with `dataFromArg` and
return a new event with the same identity and the converted data. The
embedding is purely functional, so the original event is a value that the
call cannot alter. -/
def Event.setData (e : EventAny) (arg : DataArg) : Except JSError EventAny :=
  match dataFromArg arg with
  | .ok d => .ok (withData e d)
  | .error err => .error err

/-! ## Grouping (shared phase of `merge` and `combine`) -/

/-- The two mutable objects the grouping `forEach` builds: `eventMap`
(group key → events of that key, in input order) and `typeMap` (group key
→ variant of the first event seen at that key). -/
structure GroupState where
  eventMap : List (String × List EventAny)
  typeMap : List (String × Variant)
  deriving Repr, DecidableEq

/-- One iteration of the grouping `forEach`: push the event into its key's
list, then record or check the variant for that key, throwing when the
variant differs from the recorded one. -/
def groupStep (st : GroupState) (e : EventAny) : Except JSError GroupState :=
  let key := keyOf e
  let ty := variantOf e
  let eventMap' := assocAppend st.eventMap key e
  match lookupA st.typeMap key with
  | none => .ok ⟨eventMap', st.typeMap ++ [(key, ty)]⟩
  | some t =>
      if t = ty then .ok ⟨eventMap', st.typeMap⟩
      else .error (.heterogeneousGroup key)

/-- The grouping `forEach` over the whole input. -/
def groupEvents : GroupState → List EventAny → Except JSError GroupState
  | st, [] => .ok st
  | st, e :: rest =>
      match groupStep st e with
      | .ok st' => groupEvents st' rest
      | .error err => .error err

/-- Rebuild an output event from a group key and variant, as the output
loops of `merge`/`combine` do: `+key` for a point timestamp,
`key.split(",")` with `+` coercions for a time range, the key itself for
an index. The keys reaching this point are always strings printed from
integers, on which JS unary `+` is exactly integer parsing; `getD 0`
covers the unreachable parse failure. -/
def rebuildEvent (key : String) (ty : Variant) (d : JSMap) : EventAny :=
  match ty with
  | .pointV => .point (jsStringToInt key) d
  | .indexedV => .indexed key d
  | .rangeV =>
      match (splitOnChar ',' key.data).map (fun cs => String.mk cs) with
      | [b, e] => .timerange (jsStringToInt b) (jsStringToInt e) d
      | _ => .timerange 0 0 d

/-! ## `Event.merge` -/

/-- Per-group data of `merge`: starting from an empty `Immutable.Map`,
fold `data.merge(event.data())` over the group's events in input order —
a shallow merge at each step. -/
def mergeGroupData (grp : List EventAny) : JSMap :=
  grp.foldl (fun acc e => mergeShallow acc (dataOf e)) []

/-- `Event.merge`. The output loop iterates `eventMap`; this model fixes
first-seen key order (JS objects additionally float integer-like keys to
the front in ascending order, which no claim depends on; the theorems
below are stated up to permutation across groups). -/
def Event.merge (events : List EventAny) : Except JSError (List EventAny) :=
  if events.length = 0 then .ok []
  else
    match groupEvents ⟨[], []⟩ events with
    | .error err => .error err
    | .ok st =>
        .ok (st.eventMap.map (fun kg =>
          rebuildEvent kg.1 ((lookupA st.typeMap kg.1).getD .pointV) (mergeGroupData kg.2)))

/-! ## `Event.combine` -/

/-- The `fieldSpec` argument of `combine`: a string, an array, or unset
(any other JS value leaves `fieldNames` undefined, which behaves exactly
like unset). -/
inductive CombineFieldSpec where
  | one (s : String)
  | many (l : List String)
  | unset
  deriving Repr, DecidableEq

/-- `fieldNames` as computed at the top of `combine`. -/
def combineFieldNames : CombineFieldSpec → Option (List String)
  | .one s => some [s]
  | .many l => some l
  | .unset => none

/-- `Immutable.Map.get` on event data: `undefined` when the key is absent. -/
def jsGet (m : JSMap) (f : String) : JSVal :=
  (lookupA m f).getD .undefv

/-- Per-group `mapEvent` of `combine`: for each event, the fields are the
explicit `fieldNames` or — when unset — the keys of that event's own data
(`_.map(event.data().toJSON(), (value, fieldName) => fieldName)`), and
each field's list collects `event.data().get(fieldName)`. -/
def combineMapEvent (fieldNames : Option (List String)) (grp : List EventAny) :
    List (String × List JSVal) :=
  grp.foldl
    (fun acc e =>
      let fields := match fieldNames with
        | some fs => fs
        | none => (dataOf e).map Prod.fst
      fields.foldl (fun acc2 f => assocAppend acc2 f (jsGet (dataOf e) f)) acc)
    []

/-- `Event.combine`: group as `merge` does, then per group reduce each
collected field list and build one output event carrying the reduced
fields. A reducer maps the ordered value list to one value. -/
def Event.combine (events : List EventAny) (fieldSpec : CombineFieldSpec)
    (reducer : List JSVal → JSVal) : Except JSError (List EventAny) :=
  if events.length = 0 then .ok []
  else
    let fieldNames := combineFieldNames fieldSpec
    match groupEvents ⟨[], []⟩ events with
    | .error err => .error err
    | .ok st =>
        .ok (st.eventMap.map (fun kg =>
          let mapEvent := combineMapEvent fieldNames kg.2
          let d := mapEvent.map (fun fv => (fv.1, reducer fv.2))
          rebuildEvent kg.1 ((lookupA st.typeMap kg.1).getD .pointV) d))

/-! ## `Event.map` and `Event.reduce` -/

/-- The `fieldSpec` of `Event.map`: a string, an array of strings, a
function from an event to key/value pairs, or any other value (`null`
included), which falls to the final `else` branch. Omitting the argument
defaults it to the string `"value"`. -/
inductive MapFieldSpec where
  | strv (s : String)
  | arrv (l : List String)
  | fnv (f : EventAny → List (String × JSVal))
  | otherv

/-- `event.get(fieldPath)` with a string path: `getIn` along the
dot-split path (`util.fieldPathToArray`, modelled from the spec), with
`undefined` for a missing path. The `toJS` conversion of map/list results
is the identity in this model. -/
def eventGet (e : EventAny) (s : String) : JSVal :=
  (getIn (dataOf e) (fieldPathToArray s)).getD .undefv

/-- `Event.map`. The input is a Lean list, which plays the role of an
array/`Immutable.List` (the `InvalidArgument` throw for other input types
has no image here). Defaults `multiFieldSpec` to `"value"` exactly as the
source signature `map(evts, multiFieldSpec = "value")` does. -/
def Event.map (evts : List EventAny) (multiFieldSpec : MapFieldSpec := .strv "value") :
    List (String × List JSVal) :=
  match multiFieldSpec with
  | .strv fieldSpec =>
      evts.foldl (fun acc e => assocAppend acc fieldSpec (eventGet e fieldSpec)) []
  | .arrv l =>
      l.foldl (fun acc fieldSpec =>
        evts.foldl (fun a e => assocAppend a fieldSpec (eventGet e fieldSpec)) acc) []
  | .fnv f =>
      evts.foldl (fun acc e => (f e).foldl (fun a kv => assocAppend a kv.1 kv.2) acc) []
  | .otherv =>
      evts.foldl (fun acc e =>
        (dataOf e).foldl (fun a kv => assocAppend a kv.1 kv.2) acc) []

/-- `Event.reduce`: apply the reducer to each value list of a
map-produced structure. -/
def Event.reduce (mapped : List (String × List JSVal)) (reducer : List JSVal → JSVal) :
    List (String × JSVal) :=
  mapped.map (fun kv => (kv.1, reducer kv.2))

/-! ## The gap-fill processor (`src/src/filler.js`)

The `Processor` base class and the pipeline are collaborators that are not
under `src/`; per the spec (§6) they supply only the construction
discriminator, the `addEvent` push entry point, `emit` and
`hasObservers`, and in particular no `fieldSpec` property. The model
below covers the fresh-construction path (`isPipeline(arg1)`); `clone`
copies configuration and reinitializes run state (§9) and is not needed
by any claim. -/

/-- The `fieldSpec` member of a `Filler` options object. JS distinguishes
an absent key (`undefined`) from an explicit `null`: the constructor
rewrites only `null` to `["value"]`, while `undefined` survives and makes
`addEvent` enumerate paths from each event. -/
inductive FieldSpecOpt where
  | undefv
  | nullv
  | strv (s : String)
  | arrv (l : List String)
  deriving Repr, DecidableEq

/-- The options object `{fieldSpec, method = "zero", limit = null}`. -/
structure FillerOptions where
  fieldSpec : FieldSpecOpt := .undefv
  method : Option String := none
  limit : Option Nat := none
  deriving Repr, DecidableEq

/-- The configuration a successfully constructed `Filler` carries. -/
structure FillerConfig where
  fieldSpec : FieldSpecOpt
  method : String
  limit : Option Nat
  deriving Repr, DecidableEq

/-- The `Filler` constructor on the pipeline path. After storing the
options it checks the method, normalizes `fieldSpec` (string to one-element
array, `null` to `["value"]`), and then evaluates
`this._method === "linear" && this.fieldSpec.length > 1`. The property
read there is `this.fieldSpec` — the constructor only ever sets
`this._fieldSpec`, and neither `Filler` nor (per spec §6) its `Processor`
base defines `fieldSpec` — so for `method = "linear"` the condition
dereferences `undefined` and raises a JavaScript `TypeError` before the
intended `InvalidConfig` check can run. -/
def mkFiller (options : FillerOptions) : Except JSError FillerConfig :=
  let method := options.method.getD "zero"
  if ¬ (method = "zero" ∨ method = "pad" ∨ method = "linear") then
    .error (.invalidConfig s!"Unknown method {method} passed to Filler")
  else
    let fieldSpec :=
      match options.fieldSpec with
      | .strv s => .arrv [s]
      | .nullv => .arrv ["value"]
      | fs => fs
    if method = "linear" then
      .error (.typeError "Cannot read property length of undefined")
    else
      .ok ⟨fieldSpec, method, options.limit⟩

/-- The run state of a `Filler` (§9 config/run-state separation):
previous emitted event (pad), per-path consecutive-fill counters,
last-known-good value and pending queue (linear). -/
structure FillerState where
  previousEvent : Option EventAny
  keyCount : List (String × Nat)
  lastGoodLinear : Option ℚ
  linearFillCache : List EventAny
  deriving Repr, DecidableEq

/-- Freshly initialized run state. -/
def initFillerState : FillerState :=
  ⟨none, [], none, []⟩

/-- The JS truthiness test `this._limit && count >= this._limit`:
a `null` (or zero) limit never trips. -/
def limitHit (limit : Option Nat) (count : Nat) : Bool :=
  match limit with
  | none => false
  | some l => if l = 0 then false else count ≥ l

/-- One path of `Filler._padAndZero`: initialize the counter slot, skip
paths absent from the data, and on a missing value either give up at the
limit, zero-fill, or pad from the previous *emitted* event; a valid value
resets the counter. -/
def padZeroStep (method : String) (limit : Option Nat) (previousEvent : Option EventAny)
    (acc : JSMap × List (String × Nat)) (fieldPath : List String) :
    JSMap × List (String × Nat) :=
  let newData := acc.1
  let pathKey := String.intercalate ":" fieldPath
  let kc :=
    match lookupA acc.2 pathKey with
    | none => setKey acc.2 pathKey 0
    | some _ => acc.2
  if ¬ hasIn newData fieldPath then (newData, kc)
  else
    let val := getIn newData fieldPath
    if isMissing val then
      if limitHit limit ((lookupA kc pathKey).getD 0) then (newData, kc)
      else if method = "zero" then
        (setIn newData fieldPath (.num 0), setKey kc pathKey ((lookupA kc pathKey).getD 0 + 1))
      else if method = "pad" then
        match previousEvent with
        | none => (newData, kc)
        | some prev =>
            let prevVal := getIn (dataOf prev) fieldPath
            if ¬ isMissing prevVal then
              (setIn newData fieldPath (prevVal.getD .undefv),
               setKey kc pathKey ((lookupA kc pathKey).getD 0 + 1))
            else (newData, kc)
      else (newData, kc)
    else (newData, setKey kc pathKey 0)

/-- `Filler._padAndZero` over all paths. Paths are carried here already in
array form: `util.fieldPathToArray` (modelled from the spec) is applied to
each configured string path, and generated paths are arrays already. -/
def padAndZero (method : String) (limit : Option Nat) (previousEvent : Option EventAny)
    (keyCount : List (String × Nat)) (data : JSMap) (paths : List (List String)) :
    JSMap × List (String × Nat) :=
  paths.foldl (padZeroStep method limit previousEvent) (data, keyCount)

/-- Read a numeric value out of a `JSVal` for interpolation. -/
def toNum : JSVal → Option ℚ
  | .num q => some q
  | _ => none

/-- Fill the queued events with `g0 + step*i` (1-indexed) at the path. -/
def fillQueue (path : List String) (g0 step : ℚ) : Nat → List EventAny → List EventAny
  | _, [] => []
  | i, e :: rest =>
      withData e (setIn (dataOf e) path (.num (g0 + step * (i + 1 : ℕ))))
        :: fillQueue path g0 step (i + 1) rest

/-- Modelled from the spec: `Filler._linearFill` is called from
`addEvent` but its definition is not under `src/` (the file ends after
`addEvent`). §4.4 step 3: with sole target path `p` and the event's value
`v` at `p` — if `v` is valid and the queue is non-empty, interpolate the
queued events from the last-known-good value with
`step = (v - g0)/(n + 1)`, emit them in arrival order followed by the
current event, and clear the queue; if the queue is empty just emit the
event; in both cases remember `v`. If `v` is missing, emit it unchanged
when the queue already reached the limit, otherwise queue it and emit
nothing. The spec leaves open the case of a valid value arriving over a
non-empty queue with no last-known-good value; the model emits the queued
events unfilled (as an end-of-stream flush would). -/
def linearFill (st : FillerState) (limit : Option Nat) (event : EventAny)
    (path : List String) : FillerState × List EventAny :=
  let v := getIn (dataOf event) path
  if isMissing v then
    if limitHit limit st.linearFillCache.length then (st, [event])
    else ({ st with linearFillCache := st.linearFillCache ++ [event] }, [])
  else
    let vq := (v.bind fun w => toNum w).getD 0
    if st.linearFillCache.isEmpty then
      ({ st with lastGoodLinear := some vq }, [event])
    else
      match st.lastGoodLinear with
      | some g0 =>
          let n := st.linearFillCache.length
          let step := (vq - g0) / (n + 1 : ℕ)
          ({ st with linearFillCache := [], lastGoodLinear := some vq },
           fillQueue path g0 step 0 st.linearFillCache ++ [event])
      | none =>
          ({ st with linearFillCache := [], lastGoodLinear := some vq },
           st.linearFillCache ++ [event])

/-- `Filler.addEvent`, assuming an attached observer (`hasObservers()`
true; with no observer the call does nothing at all). Returns the updated
run state together with the list of events emitted by this call. Paths:
the configured `fieldSpec` (converted per entry by `util.fieldPathToArray`)
or, when none was configured, `util.generatePaths` over the event's data. -/
def Filler.addEvent (cfg : FillerConfig) (st : FillerState) (event : EventAny) :
    FillerState × List EventAny :=
  let d := dataOf event
  let paths : List (List String) :=
    match cfg.fieldSpec with
    | .arrv l => l.map fieldPathToArray
    | _ => generatePaths d
  if cfg.method = "zero" ∨ cfg.method = "pad" then
    let (newData, kc) := padAndZero cfg.method cfg.limit st.previousEvent st.keyCount d paths
    let emit := withData event newData
    ({ st with previousEvent := some emit, keyCount := kc }, [emit])
  else if cfg.method = "linear" then
    linearFill st cfg.limit event (paths.headD ["value"])
  else (st, [])

/-- Feed a list of events through `addEvent` one at a time, collecting the
events emitted by each call. -/
def runFiller (cfg : FillerConfig) : FillerState → List EventAny →
    FillerState × List (List EventAny)
  | st, [] => (st, [])
  | st, e :: rest =>
      let (st', em) := Filler.addEvent cfg st e
      let (stF, ems) := runFiller cfg st' rest
      (stF, em :: ems)

/-! ## Specification-side views of the grouping

These definitions phrase the grouping the way the spec does — "the events
in its group taken in input order" — with no reference to the mutable
`eventMap`/`typeMap` objects, so that the theorems about `merge` and
`combine` relate the implementation to an independent description. -/

/-- The distinct elements of a list in first-seen order (later duplicates
dropped). -/
def dedupKeys : List String → List String
  | [] => []
  | k :: rest => k :: (dedupKeys rest).filter (fun k2 => decide (k2 ≠ k))

/-- The events of the group with key `k`, in input order. -/
def groupFilter (events : List EventAny) (k : String) : List EventAny :=
  events.filter (fun e => decide (keyOf e = k))

/-- The variant of the first event examined for key `k` (defaulting
arbitrarily when no event has that key). -/
def variantAt (events : List EventAny) (k : String) : Variant :=
  ((events.find? (fun e => decide (keyOf e = k))).map variantOf).getD .pointV

/-- The group structure as the spec describes it: one entry per distinct
group key in first-seen order, carrying that key's events in input order. -/
def groupsSpec (events : List EventAny) : List (String × List EventAny) :=
  (dedupKeys (events.map keyOf)).map (fun k => (k, groupFilter events k))

/-- The variant recorded per group key: that of the first event seen. -/
def typeSpec (events : List EventAny) : List (String × Variant) :=
  (dedupKeys (events.map keyOf)).map (fun k => (k, variantAt events k))

/-- Every top-level field name present in any event of the group, in
first-appearance order. -/
def allFields (grp : List EventAny) : List String :=
  dedupKeys (grp.flatMap (fun e => (dataOf e).map Prod.fst))

/-- The ordered list of a field's values contributed by the events of the
group that carry the field. -/
def collectField (grp : List EventAny) (f : String) : List JSVal :=
  grp.filterMap (fun e => lookupA (dataOf e) f)

/-! ## Concrete instances used to exercise the definitions -/

/-- A point event carrying one field `"value"`. -/
def mkValueEvent (t : Int) (v : JSVal) : EventAny :=
  .point t [("value", v)]

/-- A point event at epoch 5 and an indexed event whose index string equals
the point event's stringified timestamp: distinct variants, one group key. -/
def exHetero : List EventAny :=
  [.point 5 [("a", .num 1)], .indexed "5" [("b", .num 2)]]

/-- Two point events at one timestamp whose data hold nested maps under the
same top-level field: a deep merge would combine `x` and `y`. -/
def exNested : List EventAny :=
  [.point 0 [("a", .map [("x", .num 1)])],
   .point 0 [("a", .map [("y", .num 2)])]]

/-- Two point events at one timestamp with disjoint field names: the
second event's field is absent from the first event examined. -/
def exDisjoint : List EventAny :=
  [.point 0 [("a", .num 1)], .point 0 [("b", .num 2)]]

/-- A reducer returning the first collected value. -/
def headReducer (vs : List JSVal) : JSVal :=
  vs.headD .undefv

/-- One point event with a field named `a` (and no field `value`). -/
def exLoneA : List EventAny :=
  [.point 0 [("a", .num 1)]]

/-- Zero fill over path `"value"` with run limit 1. -/
def cfgZero : FillerConfig := ⟨.arrv ["value"], "zero", some 1⟩

/-- Pad fill over path `"value"` with no limit. -/
def cfgPad : FillerConfig := ⟨.arrv ["value"], "pad", none⟩

/-- Linear fill over the sole path `"value"` with no limit (the state
machine is analyzed directly; the constructor cannot build it, see the
claim about construction). -/
def cfgLinear : FillerConfig := ⟨.arrv ["value"], "linear", none⟩

/-! ## Association-list and dedup lemmas -/

theorem lookupA_isSome_iff {α : Type} (m : List (String × α)) (k : String) :
    (lookupA m k).isSome ↔ k ∈ m.map Prod.fst := by
  induction m with
  | nil => simp [lookupA]
  | cons kv rest ih =>
    obtain ⟨k', v⟩ := kv
    by_cases h : k' = k
    · subst h; simp [lookupA]
    · simp [lookupA, h, ih, Ne.symm h]

theorem lookupA_eq_none_iff {α : Type} (m : List (String × α)) (k : String) :
    lookupA m k = none ↔ k ∉ m.map Prod.fst := by
  rw [← lookupA_isSome_iff, Option.not_isSome_iff_eq_none]

theorem lookupA_graph {α : Type} (ks : List String) (F : String → α) (k0 : String) :
    lookupA (ks.map fun k => (k, F k)) k0 =
      if k0 ∈ ks then some (F k0) else none := by
  induction ks with
  | nil => simp [lookupA]
  | cons k ks ih =>
    by_cases h : k = k0
    · subst h; simp [lookupA]
    · simp [lookupA, h, ih, Ne.symm h]

theorem assocAppend_graph {α : Type} (ks : List String) (F : String → List α)
    (hnd : ks.Nodup) (k0 : String) (a : α) :
    assocAppend (ks.map fun k => (k, F k)) k0 a =
      if k0 ∈ ks then ks.map (fun k => (k, if k = k0 then F k ++ [a] else F k))
      else ks.map (fun k => (k, F k)) ++ [(k0, [a])] := by
  induction ks with
  | nil => simp [assocAppend]
  | cons k ks ih =>
    have hk : k ∉ ks := (List.nodup_cons.mp hnd).1
    have hnd' : ks.Nodup := (List.nodup_cons.mp hnd).2
    by_cases h : k = k0
    · subst h
      rw [if_pos (List.mem_cons_self _ _)]
      simp only [List.map_cons, assocAppend, if_pos rfl]
      refine congrArg (_ :: ·) ?_
      refine (List.map_congr_left fun x hx => ?_).symm
      have hxk : x ≠ k := fun he => hk (he ▸ hx)
      simp [hxk]
    · have h' : ¬ k0 = k := fun he => h he.symm
      simp only [List.map_cons, assocAppend, if_neg h, ih hnd']
      by_cases hmem : k0 ∈ ks
      · rw [if_pos hmem, if_pos (List.mem_cons_of_mem _ hmem)]
      · rw [if_neg hmem, if_neg (by simp [h', hmem]), List.cons_append]

theorem mem_dedupKeys (xs : List String) (k : String) :
    k ∈ dedupKeys xs ↔ k ∈ xs := by
  induction xs with
  | nil => simp [dedupKeys]
  | cons x xs ih =>
    by_cases h : k = x
    · subst h; simp [dedupKeys]
    · simp [dedupKeys, List.mem_filter, h, ih]

theorem nodup_dedupKeys (xs : List String) : (dedupKeys xs).Nodup := by
  induction xs with
  | nil => simp [dedupKeys]
  | cons x xs ih =>
    rw [dedupKeys, List.nodup_cons]
    constructor
    · intro hmem
      exact (by simpa using (List.mem_filter.mp hmem).2 : x ≠ x) rfl
    · exact ih.filter _

theorem dedupKeys_append (xs ys : List String) :
    dedupKeys (xs ++ ys) =
      dedupKeys xs ++ (dedupKeys ys).filter (fun y => decide (y ∉ xs)) := by
  induction xs with
  | nil => simp [dedupKeys]
  | cons x xs ih =>
    have hsub : ((dedupKeys ys).filter (fun y => decide (y ∉ xs))).filter
        (fun k2 => decide (k2 ≠ x)) =
        (dedupKeys ys).filter (fun y => decide (y ∉ x :: xs)) := by
      rw [List.filter_filter]
      refine List.filter_congr fun y _ => ?_
      by_cases h1 : y = x <;> by_cases h2 : y ∈ xs <;> simp [h1, h2]
    calc dedupKeys ((x :: xs) ++ ys)
        = x :: (dedupKeys (xs ++ ys)).filter (fun k2 => decide (k2 ≠ x)) := rfl
      _ = x :: ((dedupKeys xs).filter (fun k2 => decide (k2 ≠ x)) ++
            ((dedupKeys ys).filter (fun y => decide (y ∉ xs))).filter
              (fun k2 => decide (k2 ≠ x))) := by rw [ih, List.filter_append]
      _ = x :: ((dedupKeys xs).filter (fun k2 => decide (k2 ≠ x)) ++
            (dedupKeys ys).filter (fun y => decide (y ∉ x :: xs))) := by rw [hsub]
      _ = dedupKeys (x :: xs) ++ (dedupKeys ys).filter (fun y => decide (y ∉ x :: xs)) := by
            rw [dedupKeys, List.cons_append]

theorem dedupKeys_concat (xs : List String) (x : String) :
    dedupKeys (xs ++ [x]) =
      if x ∈ xs then dedupKeys xs else dedupKeys xs ++ [x] := by
  rw [dedupKeys_append]
  by_cases h : x ∈ xs <;> simp [dedupKeys, h]

theorem dedupKeys_eq_self (xs : List String) (h : xs.Nodup) : dedupKeys xs = xs := by
  induction xs with
  | nil => simp [dedupKeys]
  | cons x xs ih =>
    have hx : x ∉ xs := (List.nodup_cons.mp h).1
    rw [dedupKeys, ih (List.nodup_cons.mp h).2, List.cons.injEq]
    refine ⟨rfl, List.filter_eq_self.mpr fun y hy => ?_⟩
    have : y ≠ x := fun he => hx (he ▸ hy)
    simpa using this

/-! ## Grouping correspondence: the mutable phase equals the spec view -/

theorem find?_key_append_left (events l : List EventAny) (k : String)
    (h : k ∈ events.map keyOf) :
    (events ++ l).find? (fun e => decide (keyOf e = k)) =
      events.find? (fun e => decide (keyOf e = k)) := by
  rw [List.find?_append]
  obtain ⟨e, he, hk⟩ := List.mem_map.mp h
  have hsome : (events.find? fun e2 => decide (keyOf e2 = k)).isSome :=
    List.find?_isSome.mpr ⟨e, he, by simpa using hk⟩
  obtain ⟨v, hv⟩ := Option.isSome_iff_exists.mp hsome
  rw [hv]
  rfl

theorem variantAt_append_of_mem (events l : List EventAny) (k : String)
    (h : k ∈ events.map keyOf) :
    variantAt (events ++ l) k = variantAt events k := by
  unfold variantAt
  rw [find?_key_append_left events l k h]

theorem find?_key_eq_none (events : List EventAny) (k : String)
    (h : k ∉ events.map keyOf) :
    events.find? (fun e => decide (keyOf e = k)) = none := by
  rw [List.find?_eq_none]
  intro x hx hpx
  exact h (List.mem_map.mpr ⟨x, hx, by simpa using hpx⟩)

theorem variantAt_append_cons_self (pre l : List EventAny) (e : EventAny)
    (h : keyOf e ∉ pre.map keyOf) :
    variantAt (pre ++ e :: l) (keyOf e) = variantOf e := by
  unfold variantAt
  rw [List.find?_append, find?_key_eq_none pre (keyOf e) h]
  simp [List.find?]

theorem groupFilter_concat (events : List EventAny) (e : EventAny) (k : String) :
    groupFilter (events ++ [e]) k =
      groupFilter events k ++ (if keyOf e = k then [e] else []) := by
  unfold groupFilter
  rw [List.filter_append]
  congr 1
  by_cases h : keyOf e = k <;> simp [h]

theorem groupFilter_eq_nil (events : List EventAny) (k : String)
    (h : k ∉ events.map keyOf) : groupFilter events k = [] := by
  unfold groupFilter
  rw [List.filter_eq_nil_iff]
  intro e he hk
  exact h (List.mem_map.mpr ⟨e, he, by simpa using hk⟩)

theorem typeSpec_lookup (events : List EventAny) (k : String) :
    lookupA (typeSpec events) k =
      if k ∈ events.map keyOf then some (variantAt events k) else none := by
  unfold typeSpec
  rw [lookupA_graph]
  by_cases h : k ∈ events.map keyOf <;>
    simp [h, mem_dedupKeys]

theorem groupStep_spec (pre : List EventAny) (e : EventAny) (st' : GroupState)
    (h : groupStep ⟨groupsSpec pre, typeSpec pre⟩ e = .ok st') :
    st' = ⟨groupsSpec (pre ++ [e]), typeSpec (pre ++ [e])⟩ := by
  have hnd := nodup_dedupKeys (pre.map keyOf)
  have hmapAA := assocAppend_graph (dedupKeys (pre.map keyOf)) (groupFilter pre) hnd
    (keyOf e) e
  simp only [groupStep] at h
  rw [typeSpec_lookup] at h
  by_cases hk : keyOf e ∈ pre.map keyOf
  · rw [if_pos hk] at h
    dsimp at h
    split at h
    · rename_i hvar
      cases h
      have hkd : keyOf e ∈ dedupKeys (pre.map keyOf) := (mem_dedupKeys _ _).mpr hk
      rw [GroupState.mk.injEq]
      refine ⟨?_, ?_⟩
      · show assocAppend (groupsSpec pre) (keyOf e) e = groupsSpec (pre ++ [e])
        unfold groupsSpec
        rw [hmapAA, if_pos hkd]
        simp only [List.map_append, List.map_cons, List.map_nil]
        rw [dedupKeys_concat, if_pos hk]
        refine List.map_congr_left fun k hkm => ?_
        rw [groupFilter_concat]
        by_cases hke : k = keyOf e
        · subst hke; simp
        · have : ¬ keyOf e = k := fun he2 => hke he2.symm
          simp [hke, this]
      · show typeSpec pre = typeSpec (pre ++ [e])
        unfold typeSpec
        simp only [List.map_append, List.map_cons, List.map_nil]
        rw [dedupKeys_concat, if_pos hk]
        refine List.map_congr_left fun k hkm => ?_
        rw [variantAt_append_of_mem pre [e] k ((mem_dedupKeys _ _).mp hkm)]
    · exact Except.noConfusion h
  · rw [if_neg hk] at h
    dsimp at h
    cases h
    have hkd : keyOf e ∉ dedupKeys (pre.map keyOf) := fun hm => hk ((mem_dedupKeys _ _).mp hm)
    rw [GroupState.mk.injEq]
    refine ⟨?_, ?_⟩
    · show assocAppend (groupsSpec pre) (keyOf e) e = groupsSpec (pre ++ [e])
      unfold groupsSpec
      rw [hmapAA, if_neg hkd]
      simp only [List.map_append, List.map_cons, List.map_nil]
      rw [dedupKeys_concat, if_neg hk, List.map_append]
      congr 1
      · refine List.map_congr_left fun k hkm => ?_
        rw [groupFilter_concat]
        have hke : ¬ keyOf e = k := by
          intro he2
          exact hk (he2 ▸ (mem_dedupKeys _ _).mp hkm)
        simp [hke]
      · have : groupFilter (pre ++ [e]) (keyOf e) = [e] := by
          rw [groupFilter_concat, groupFilter_eq_nil pre (keyOf e) hk]
          simp
        simp [this]
    · show typeSpec pre ++ [(keyOf e, variantOf e)] = typeSpec (pre ++ [e])
      unfold typeSpec
      simp only [List.map_append, List.map_cons, List.map_nil]
      rw [dedupKeys_concat, if_neg hk, List.map_append]
      congr 1
      · refine (List.map_congr_left fun k hkm => ?_).symm
        rw [variantAt_append_of_mem pre [e] k ((mem_dedupKeys _ _).mp hkm)]
      · have : variantAt (pre ++ [e]) (keyOf e) = variantOf e :=
          variantAt_append_cons_self pre [] e hk
        simp [this]

theorem groupEvents_spec : ∀ (rest pre : List EventAny) (st : GroupState),
    groupEvents ⟨groupsSpec pre, typeSpec pre⟩ rest = .ok st →
    st = ⟨groupsSpec (pre ++ rest), typeSpec (pre ++ rest)⟩
  | [], pre, st, h => by
      unfold groupEvents at h
      cases h
      simp
  | e :: rest, pre, st, h => by
      unfold groupEvents at h
      cases hstep : groupStep ⟨groupsSpec pre, typeSpec pre⟩ e with
      | error err =>
          rw [hstep] at h
          exact Except.noConfusion h
      | ok st1 =>
          rw [hstep] at h
          dsimp at h
          rw [groupStep_spec pre e st1 hstep] at h
          have := groupEvents_spec rest (pre ++ [e]) st h
          simpa using this

theorem groupStep_ok_variant (pre : List EventAny) (e : EventAny) (st' : GroupState)
    (h : groupStep ⟨groupsSpec pre, typeSpec pre⟩ e = .ok st')
    (hk : keyOf e ∈ pre.map keyOf) :
    variantAt pre (keyOf e) = variantOf e := by
  simp only [groupStep] at h
  rw [typeSpec_lookup, if_pos hk] at h
  dsimp at h
  split at h
  · rename_i hvar
    exact hvar
  · exact Except.noConfusion h

theorem groupEvents_homog : ∀ (rest pre : List EventAny) (st : GroupState),
    groupEvents ⟨groupsSpec pre, typeSpec pre⟩ rest = .ok st →
    ∀ e ∈ rest, variantOf e = variantAt (pre ++ rest) (keyOf e)
  | [], _, _, _ => by
      intro e he
      cases he
  | e0 :: rest, pre, st, h => by
      intro e he
      unfold groupEvents at h
      cases hstep : groupStep ⟨groupsSpec pre, typeSpec pre⟩ e0 with
      | error err =>
          rw [hstep] at h
          exact Except.noConfusion h
      | ok st1 =>
          rw [hstep] at h
          dsimp at h
          rcases List.mem_cons.mp he with rfl | hmem
          · by_cases hk : keyOf e ∈ pre.map keyOf
            · rw [variantAt_append_of_mem pre (e :: rest) (keyOf e) hk]
              exact (groupStep_ok_variant pre e st1 hstep hk).symm
            · exact (variantAt_append_cons_self pre rest e hk).symm
          · rw [groupStep_spec pre e0 st1 hstep] at h
            have := groupEvents_homog rest (pre ++ [e0]) st h e hmem
            simpa using this

theorem groupStep_error (st : GroupState) (e : EventAny) (err : JSError)
    (h : groupStep st e = .error err) : ∃ k, err = .heterogeneousGroup k := by
  simp only [groupStep] at h
  cases hl : lookupA st.typeMap (keyOf e) with
  | none =>
      rw [hl] at h
      exact Except.noConfusion h
  | some t =>
      rw [hl] at h
      dsimp at h
      split at h
      · exact Except.noConfusion h
      · cases h
        exact ⟨keyOf e, rfl⟩

theorem groupEvents_error : ∀ (l : List EventAny) (st : GroupState) (err : JSError),
    groupEvents st l = .error err → ∃ k, err = .heterogeneousGroup k
  | [], _, _, h => Except.noConfusion h
  | e :: rest, st, err, h => by
      unfold groupEvents at h
      cases hstep : groupStep st e with
      | error err2 =>
          rw [hstep] at h
          dsimp at h
          cases h
          exact groupStep_error st e err hstep
      | ok st1 =>
          rw [hstep] at h
          dsimp at h
          exact groupEvents_error rest st1 err h

theorem variantOf_rebuildEvent (k : String) (ty : Variant) (d : JSMap) :
    variantOf (rebuildEvent k ty d) = ty := by
  cases ty with
  | rangeV =>
      simp only [rebuildEvent]
      split <;> rfl
  | pointV => rfl
  | indexedV => rfl

theorem dataOf_rebuildEvent (k : String) (ty : Variant) (d : JSMap) :
    dataOf (rebuildEvent k ty d) = d := by
  cases ty with
  | rangeV =>
      simp only [rebuildEvent]
      split <;> rfl
  | pointV => rfl
  | indexedV => rfl

/-! ## The `combine` field accumulation -/

theorem lookupA_toList_graph (m : JSMap) (k : String) :
    (lookupA m k).toList =
      if k ∈ m.map Prod.fst then [jsGet m k] else [] := by
  cases hl : lookupA m k with
  | none =>
      rw [if_neg]
      · rfl
      · intro hmem
        rw [← lookupA_isSome_iff, hl] at hmem
        cases hmem
  | some v =>
      rw [if_pos]
      · simp [jsGet, hl]
      · rw [← lookupA_isSome_iff, hl]
        rfl

theorem collectField_nil_of_not_mem (grp : List EventAny) (k : String)
    (h : k ∉ grp.flatMap (fun e => (dataOf e).map Prod.fst)) :
    collectField grp k = [] := by
  unfold collectField
  rw [List.filterMap_eq_nil_iff]
  intro e he
  rw [lookupA_eq_none_iff]
  intro hmem
  exact h (List.mem_flatMap.mpr ⟨e, he, hmem⟩)

theorem nodup_allFields (grp : List EventAny) : (allFields grp).Nodup :=
  nodup_dedupKeys _

/-- Folding one event's fields into a graph-shaped accumulator: the keys
gain the event's new fields at the end, and each field present in the
event appends its value. -/
theorem foldl_assocAppend_graph {α : Type} :
    ∀ (fs : List String), fs.Nodup → ∀ (ks : List String), ks.Nodup →
      ∀ (F : String → List α) (g : String → α),
      fs.foldl (fun acc f => assocAppend acc f (g f)) (ks.map fun k => (k, F k)) =
        (ks ++ fs.filter (fun f => decide (f ∉ ks))).map
          (fun k => (k, (if k ∈ ks then F k else []) ++ (if k ∈ fs then [g k] else [])))
  | [], _, ks, hks, F, g => by
      simp only [List.foldl_nil, List.filter_nil, List.append_nil]
      refine (List.map_congr_left fun k hk => ?_).symm
      simp [hk]
  | f :: fs, hffs, ks, hks, F, g => by
      have hf : f ∉ fs := (List.nodup_cons.mp hffs).1
      have hfs : fs.Nodup := (List.nodup_cons.mp hffs).2
      rw [List.foldl_cons, assocAppend_graph ks F hks f (g f)]
      by_cases hmem : f ∈ ks
      · rw [if_pos hmem,
          foldl_assocAppend_graph fs hfs ks hks
            (fun k => if k = f then F k ++ [g f] else F k) g]
        have hfil : (f :: fs).filter (fun x => decide (x ∉ ks)) =
            fs.filter (fun x => decide (x ∉ ks)) := by
          rw [List.filter_cons]
          simp [hmem]
        rw [hfil]
        refine List.map_congr_left fun k hk => ?_
        rcases List.mem_append.mp hk with hkks | hkfil
        · by_cases hkf : k = f
          · subst hkf
            simp [hkks, hf]
          · by_cases hkfs : k ∈ fs <;> simp [hkks, hkf, hkfs]
        · have hknks : k ∉ ks := by simpa using (List.mem_filter.mp hkfil).2
          have hkfs : k ∈ fs := (List.mem_filter.mp hkfil).1
          have hkf : k ≠ f := fun he => hf (he ▸ hkfs)
          simp [hknks, hkfs, hkf]
      · rw [if_neg hmem]
        have hconv : ks.map (fun k => (k, F k)) ++ [(f, [g f])] =
            (ks ++ [f]).map (fun k => (k, if k = f then [g f] else F k)) := by
          rw [List.map_append]
          congr 1
          · refine (List.map_congr_left fun k hk => ?_).symm
            have hkf : k ≠ f := fun he => hmem (he ▸ hk)
            simp [hkf]
          · simp
        have hksf : (ks ++ [f]).Nodup := by
          simp [List.nodup_append, hks, hmem]
        rw [hconv,
          foldl_assocAppend_graph fs hfs (ks ++ [f]) hksf
            (fun k => if k = f then [g f] else F k) g]
        have hfil2 : fs.filter (fun x => decide (x ∉ ks ++ [f])) =
            fs.filter (fun x => decide (x ∉ ks)) := by
          refine List.filter_congr fun y hy => ?_
          have hyf : y ≠ f := fun he => hf (he ▸ hy)
          simp [hyf]
        have hfil3 : (f :: fs).filter (fun x => decide (x ∉ ks)) =
            f :: fs.filter (fun x => decide (x ∉ ks)) := by
          rw [List.filter_cons]
          simp [hmem]
        rw [hfil2, hfil3, List.append_assoc, List.singleton_append]
        refine List.map_congr_left fun k hk => ?_
        rcases List.mem_append.mp hk with hkks | hkrest
        · have hkf : k ≠ f := fun he => hmem (he ▸ hkks)
          by_cases hkfs : k ∈ fs <;> simp [hkks, hkf, hkfs]
        · rcases List.mem_cons.mp hkrest with rfl | hkfil
          · simp [hmem, hf]
          · have hknks : k ∉ ks := by simpa using (List.mem_filter.mp hkfil).2
            have hkfs : k ∈ fs := (List.mem_filter.mp hkfil).1
            have hkf : k ≠ f := fun he => hf (he ▸ hkfs)
            simp [hknks, hkfs, hkf]

/-- With `fieldSpec` unset, the per-group `mapEvent` object of `combine`
is exactly: one entry per field name present in any grouped event (in
first-appearance order), carrying the ordered list of that field's values
from the events that carry the field. Requires each event's data keys to
be duplicate-free, which every real `Immutable.Map` satisfies. -/
theorem combineMapEvent_unset :
    ∀ (grp : List EventAny),
      (∀ e ∈ grp, ((dataOf e).map Prod.fst).Nodup) →
      combineMapEvent none grp =
        (allFields grp).map (fun f => (f, collectField grp f)) := by
  intro grp
  induction grp using List.reverseRecOn with
  | nil => intro _; rfl
  | append_singleton grp e ih =>
      intro hnd
      have hnd' : ∀ e2 ∈ grp, ((dataOf e2).map Prod.fst).Nodup :=
        fun e2 he2 => hnd e2 (List.mem_append_left _ he2)
      have hnde : ((dataOf e).map Prod.fst).Nodup := hnd e (by simp)
      unfold combineMapEvent
      rw [List.foldl_append, List.foldl_cons, List.foldl_nil]
      rw [show (grp.foldl (fun acc e2 =>
          ((dataOf e2).map Prod.fst).foldl
            (fun acc2 f => assocAppend acc2 f (jsGet (dataOf e2) f)) acc)
          ([] : List (String × List JSVal))) = combineMapEvent none grp from rfl]
      rw [ih hnd']
      rw [foldl_assocAppend_graph ((dataOf e).map Prod.fst) hnde (allFields grp)
        (nodup_allFields grp) (collectField grp) (jsGet (dataOf e))]
      have hfields : allFields (grp ++ [e]) =
          allFields grp ++
            ((dataOf e).map Prod.fst).filter (fun f => decide (f ∉ allFields grp)) := by
        unfold allFields
        rw [List.flatMap_append]
        rw [show ([e].flatMap fun e2 => (dataOf e2).map Prod.fst) =
            (dataOf e).map Prod.fst by simp]
        rw [dedupKeys_append, dedupKeys_eq_self _ hnde]
        refine congrArg (_ ++ ·) (List.filter_congr fun y _ => ?_)
        by_cases hy : y ∈ grp.flatMap fun e2 => (dataOf e2).map Prod.fst <;>
          simp [hy, mem_dedupKeys]
      rw [hfields]
      refine List.map_congr_left fun k hk => ?_
      have hcol : collectField (grp ++ [e]) k =
          collectField grp k ++ (lookupA (dataOf e) k).toList := by
        unfold collectField
        rw [List.filterMap_append]
        refine congrArg (_ ++ ·) ?_
        cases hl : lookupA (dataOf e) k <;> simp [hl]
      rw [hcol, lookupA_toList_graph]
      rcases List.mem_append.mp hk with hkks | hkfil
      · rw [if_pos hkks]
      · have hknks : k ∉ allFields grp := by simpa using (List.mem_filter.mp hkfil).2
        have hke : k ∈ (dataOf e).map Prod.fst := (List.mem_filter.mp hkfil).1
        have hnil : collectField grp k = [] := by
          refine collectField_nil_of_not_mem grp k fun hmem => ?_
          exact hknks ((mem_dedupKeys _ _).mpr hmem)
        simp [hknks, hke, hnil]

/-- Folding values into an association list at one fixed key only grows
that key's list, in order. -/
theorem foldl_assocAppend_const_key {α β : Type} (s : String) (g : β → α) :
    ∀ (l : List β) (vs : List α),
      l.foldl (fun acc e => assocAppend acc s (g e)) [(s, vs)] = [(s, vs ++ l.map g)]
  | [], vs => by simp
  | e :: l, vs => by
      rw [List.foldl_cons,
        show assocAppend [(s, vs)] s (g e) = [(s, vs ++ [g e])] from by
          simp [assocAppend],
        foldl_assocAppend_const_key s g l (vs ++ [g e])]
      simp

/-! ## Claims -/

/-- C1: for every event `e` and every replacement data `d` that converts
(`dataFromArg d = .ok m`), `e.setData(d)` returns a new event whose
temporal identity equals `e`'s and whose data is the converted `d`. The
embedding is purely functional, so `e` itself — its `data()` and identity
— cannot be altered by the call: the returned event is a fresh value and
`e` is untouched by construction. -/
theorem setData_new_event_same_identity (e : EventAny) (d : DataArg) (m : JSMap)
    (h : dataFromArg d = .ok m) :
    Event.setData e d = .ok (withData e m) ∧
      identityOf (withData e m) = identityOf e ∧
      dataOf (withData e m) = m := by
  refine ⟨?_, ?_, ?_⟩
  · unfold Event.setData
    rw [h]
  · cases e <;> rfl
  · cases e <;> rfl

/-- Witness for C1 at a concrete event and scalar replacement data. -/
theorem setData_new_event_same_identity_witness :
    Event.setData (EventAny.point 7 [("a", JSVal.num 1)]) (.num 3) =
        .ok (withData (EventAny.point 7 [("a", JSVal.num 1)]) [("value", JSVal.num 3)]) ∧
      identityOf (withData (EventAny.point 7 [("a", JSVal.num 1)]) [("value", JSVal.num 3)]) =
        identityOf (EventAny.point 7 [("a", JSVal.num 1)]) ∧
      dataOf (withData (EventAny.point 7 [("a", JSVal.num 1)]) [("value", JSVal.num 3)]) =
        [("value", JSVal.num 3)] :=
  setData_new_event_same_identity (EventAny.point 7 [("a", JSVal.num 1)]) (.num 3)
    [("value", JSVal.num 3)] rfl

/-- C2: whenever the input to `merge` or `combine` holds two events with
the same group key but different variants, the operation fails with
`HeterogeneousGroup`; the error carries no output, so nothing partial is
emitted. -/
theorem merge_combine_heterogeneous (events : List EventAny)
    (h : ∃ e1 ∈ events, ∃ e2 ∈ events,
      keyOf e1 = keyOf e2 ∧ variantOf e1 ≠ variantOf e2) :
    (∃ k, Event.merge events = .error (.heterogeneousGroup k)) ∧
      ∀ fs r, ∃ k, Event.combine events fs r = .error (.heterogeneousGroup k) := by
  obtain ⟨e1, he1, e2, he2, hkey, hvar⟩ := h
  have hlen : ¬ events.length = 0 := by
    intro h0
    rw [List.length_eq_zero.mp h0] at he1
    cases he1
  cases hg : groupEvents ⟨[], []⟩ events with
  | ok st =>
      exfalso
      have h1 := groupEvents_homog events [] st hg e1 he1
      have h2 := groupEvents_homog events [] st hg e2 he2
      rw [List.nil_append] at h1 h2
      rw [hkey] at h1
      exact hvar (h1.trans h2.symm)
  | error err =>
      obtain ⟨k, rfl⟩ := groupEvents_error events ⟨[], []⟩ err hg
      constructor
      · refine ⟨k, ?_⟩
        unfold Event.merge
        rw [if_neg hlen, hg]
      · intro fs r
        refine ⟨k, ?_⟩
        unfold Event.combine
        rw [if_neg hlen]
        dsimp only
        rw [hg]

/-- Witness for C2: a point event at time 5 and an indexed event with
index `"5"` share the group key `"5"` while differing in variant. -/
theorem merge_combine_heterogeneous_witness :
    (∃ k, Event.merge exHetero = .error (.heterogeneousGroup k)) ∧
      ∀ fs r, ∃ k, Event.combine exHetero fs r = .error (.heterogeneousGroup k) :=
  merge_combine_heterogeneous exHetero
    ⟨.point 5 [("a", .num 1)], by simp [exHetero],
     .indexed "5" [("b", .num 2)], by simp [exHetero],
     by decide⟩

/-- C10: on the empty input both `merge` and `combine` return the empty
output immediately (the `events.length === 0` early return), succeeding
for every field spec and reducer without any grouping or reduction. -/
theorem merge_combine_empty :
    Event.merge [] = .ok [] ∧
      ∀ fs r, Event.combine [] fs r = .ok [] :=
  ⟨rfl, fun _ _ => rfl⟩

/-- Counterexample to C3 as stated: `merge` uses Immutable's *shallow*
`Map.merge`, not a deep merge. On two point events at one timestamp whose
data nest maps under the same field `"a"`, the code's output data is the
second event's `{a: {y: 2}}` wholesale, while the deep merge of the two
data objects in input order is `{a: {x: 1, y: 2}}` — the claim's
predicted data differs from the code's. -/
theorem merge_deep_claim_counterexample :
    Event.merge exNested =
        .ok [.point 0 [("a", .map [("y", .num 2)])]] ∧
      deepMergeV (.map [("a", JSVal.map [("x", JSVal.num 1)])])
          (.map [("a", JSVal.map [("y", JSVal.num 2)])]) =
        .map [("a", .map [("x", .num 1), ("y", .num 2)])] ∧
      JSVal.map [("a", JSVal.map [("y", JSVal.num 2)])] ≠
        .map [("a", .map [("x", .num 1), ("y", .num 2)])] := by
  refine ⟨rfl, ?_, by decide⟩
  simp [deepMergeV, deepMergeE, lookupA, setKey]

/-- C3 (amended): for every input on which `merge` succeeds, the outputs
correspond — up to order across groups, which the grouping object leaves
unspecified — to the distinct group keys in first-seen order, each output
event carrying its group's variant and, as data, the *shallow top-level*
merge of the data of all events in its group taken in input order, later
events' values replacing earlier ones wholesale at conflicting top-level
fields (`mergeGroupData` is the left fold of `Immutable.Map.merge` from
the empty map). -/
theorem merge_data_shallow_per_group (events out : List EventAny)
    (h : Event.merge events = .ok out) :
    List.Perm (out.map fun e => (variantOf e, dataOf e))
      ((dedupKeys (events.map keyOf)).map fun k =>
        (variantAt events k, mergeGroupData (groupFilter events k))) := by
  unfold Event.merge at h
  by_cases hlen : events.length = 0
  · rw [if_pos hlen] at h
    cases h
    rw [List.length_eq_zero.mp hlen]
    simp [dedupKeys]
  · rw [if_neg hlen] at h
    cases hg : groupEvents ⟨[], []⟩ events with
    | error err =>
        rw [hg] at h
        exact Except.noConfusion h
    | ok st =>
        rw [hg] at h
        dsimp at h
        cases h
        have hst := groupEvents_spec events [] st hg
        rw [List.nil_append] at hst
        subst hst
        have heq : ((groupsSpec events).map (fun kg =>
            rebuildEvent kg.1 ((lookupA (typeSpec events) kg.1).getD .pointV)
              (mergeGroupData kg.2))).map (fun e => (variantOf e, dataOf e)) =
            (dedupKeys (events.map keyOf)).map fun k =>
              (variantAt events k, mergeGroupData (groupFilter events k)) := by
          rw [List.map_map]
          unfold groupsSpec
          rw [List.map_map]
          refine List.map_congr_left fun k hk => ?_
          dsimp [Function.comp]
          rw [variantOf_rebuildEvent, dataOf_rebuildEvent, typeSpec_lookup,
            if_pos ((mem_dedupKeys _ _).mp hk)]
          rfl
        rw [heq]

/-- Counterexample to C4 as stated: with `fieldSpec` unset, `combine`
re-derives the field list from EACH grouped event's own data
(`fields` is recomputed inside the per-event loop), not from the first
event examined for the group. With group events `{a: 1}` then `{b: 2}`
at one timestamp, the claim predicts an output carrying exactly the first
event's field set `{a}`; the code's output carries both `a` and `b`. -/
theorem combine_first_event_fields_counterexample :
    Event.combine exDisjoint .unset headReducer =
        .ok [.point 0 [("a", .num 1), ("b", .num 2)]] ∧
      [("a", JSVal.num 1), ("b", JSVal.num 2)].map Prod.fst ≠
        (dataOf (EventAny.point 0 [("a", JSVal.num 1)])).map Prod.fst :=
  ⟨rfl, by decide⟩

/-- C4 (amended): with `fieldSpec` unset, for every input on which
`combine` succeeds and whose events' data keys are duplicate-free (as
those of every real `Immutable.Map` are), the outputs correspond — up to
order across groups — to the distinct group keys; each group's output
event carries exactly one reduced field per field name present in *any*
of the group's events, in first-appearance order, and the reducer is
applied to the ordered list of that field's values contributed by the
events that carry the field. -/
theorem combine_unset_fields_per_group (events out : List EventAny)
    (r : List JSVal → JSVal)
    (hnd : ∀ e ∈ events, ((dataOf e).map Prod.fst).Nodup)
    (h : Event.combine events .unset r = .ok out) :
    List.Perm (out.map fun e => (variantOf e, dataOf e))
      ((dedupKeys (events.map keyOf)).map fun k =>
        (variantAt events k,
          (allFields (groupFilter events k)).map
            (fun f => (f, r (collectField (groupFilter events k) f))))) := by
  unfold Event.combine at h
  by_cases hlen : events.length = 0
  · rw [if_pos hlen] at h
    cases h
    rw [List.length_eq_zero.mp hlen]
    simp [dedupKeys]
  · rw [if_neg hlen] at h
    dsimp only at h
    cases hg : groupEvents ⟨[], []⟩ events with
    | error err =>
        rw [hg] at h
        exact Except.noConfusion h
    | ok st =>
        rw [hg] at h
        dsimp at h
        cases h
        have hst := groupEvents_spec events [] st hg
        rw [List.nil_append] at hst
        subst hst
        have heq : ((groupsSpec events).map (fun kg =>
            rebuildEvent kg.1 ((lookupA (typeSpec events) kg.1).getD .pointV)
              ((combineMapEvent (combineFieldNames .unset) kg.2).map
                (fun fv => (fv.1, r fv.2))))).map (fun e => (variantOf e, dataOf e)) =
            (dedupKeys (events.map keyOf)).map fun k =>
              (variantAt events k,
                (allFields (groupFilter events k)).map
                  (fun f => (f, r (collectField (groupFilter events k) f)))) := by
          rw [List.map_map]
          unfold groupsSpec
          rw [List.map_map]
          refine List.map_congr_left fun k hk => ?_
          dsimp [Function.comp]
          rw [variantOf_rebuildEvent, dataOf_rebuildEvent, typeSpec_lookup,
            if_pos ((mem_dedupKeys _ _).mp hk)]
          rw [show combineFieldNames .unset = none from rfl,
            combineMapEvent_unset (groupFilter events k)
              (fun e he => hnd e (List.mem_filter.mp he).1),
            List.map_map]
          rfl
        rw [heq]

/-- Witness for the amended C4 at the disjoint-fields input. -/
theorem combine_unset_fields_per_group_witness :
    List.Perm
      ([EventAny.point 0 [("a", JSVal.num 1), ("b", JSVal.num 2)]].map
        fun e => (variantOf e, dataOf e))
      ((dedupKeys (exDisjoint.map keyOf)).map fun k =>
        (variantAt exDisjoint k,
          (allFields (groupFilter exDisjoint k)).map
            (fun f => (f, headReducer (collectField (groupFilter exDisjoint k) f))))) :=
  combine_unset_fields_per_group exDisjoint
    [EventAny.point 0 [("a", JSVal.num 1), ("b", JSVal.num 2)]] headReducer
    (by decide) rfl

/-- Counterexample to C5 as stated: on one event with data `{a: 1}` and
the `fieldSpec` argument omitted, the claim predicts the mapping
`{a: [1]}` (one key per top-level data key); the code returns
`{value: [undefined]}`, because the omitted argument defaults to the
string `"value"` (`map(evts, multiFieldSpec = "value")`) and the string
branch pushes `event.get("value")` for every event. The all-columns
behavior the claim describes is the final `else` branch, reached only for
a fieldSpec that is not a string, array or function (e.g. `null`). -/
theorem map_omitted_counterexample :
    Event.map exLoneA = [("value", [JSVal.undefv])] ∧
      [("value", [JSVal.undefv])] ≠ [("a", [JSVal.num 1])] :=
  ⟨rfl, by decide⟩

/-- C5 (amended): with the `fieldSpec` argument omitted it defaults to
the single field name `"value"`, so for a non-empty input the returned
mapping has exactly one key, `"value"`, carrying each event's value at
path `"value"` in input order (JS `undefined` where the path is absent);
for the empty input the mapping is empty, since the key is only created
when the first event is pushed. -/
theorem map_omitted_defaults_to_value (evts : List EventAny) :
    Event.map evts =
      (if evts.isEmpty then []
       else [("value", evts.map (fun e => eventGet e "value"))]) := by
  cases evts with
  | nil => rfl
  | cons e rest =>
      show Event.map (e :: rest) (.strv "value") = _
      unfold Event.map
      dsimp only
      rw [List.foldl_cons,
        show assocAppend ([] : List (String × List JSVal)) "value"
            (eventGet e "value") = [("value", [eventGet e "value"])] from rfl,
        foldl_assocAppend_const_key "value" (fun e2 => eventGet e2 "value") rest
          [eventGet e "value"]]
      simp

/-- Witness for the amended C3 at the nested two-event input. -/
theorem merge_data_shallow_per_group_witness :
    List.Perm
      ([EventAny.point 0 [("a", JSVal.map [("y", JSVal.num 2)])]].map
        fun e => (variantOf e, dataOf e))
      ((dedupKeys (exNested.map keyOf)).map fun k =>
        (variantAt exNested k, mergeGroupData (groupFilter exNested k))) :=
  merge_data_shallow_per_group exNested
    [EventAny.point 0 [("a", JSVal.map [("y", JSVal.num 2)])]] rfl

/-- C6 is a code bug: the intended check `InvalidConfig` for linear fill
with a multi-path fieldSpec is unreachable. Line 73 of `filler.js` reads
`this.fieldSpec.length` — but the constructor only ever sets
`this._fieldSpec`, and neither `Filler` nor (per spec §6) its `Processor`
base defines a `fieldSpec` property — so whenever `method = "linear"` the
condition dereferences `undefined` and raises a JavaScript TypeError,
even for the single-path fieldSpec the claim says must construct
successfully. Only the unknown-method case yields the specified
`InvalidConfig`; zero/pad configurations construct normally, with a
string fieldSpec wrapped into a one-element array and an explicit `null`
fieldSpec defaulted to `["value"]`. -/
theorem filler_linear_construction_bug :
    mkFiller ⟨.strv "value", some "linear", none⟩ =
        .error (.typeError "Cannot read property length of undefined") ∧
      mkFiller ⟨.arrv ["value"], some "linear", none⟩ =
        .error (.typeError "Cannot read property length of undefined") ∧
      mkFiller ⟨.undefv, some "bogus", none⟩ =
        .error (.invalidConfig "Unknown method bogus passed to Filler") ∧
      mkFiller ⟨.strv "value", some "zero", none⟩ =
        .ok ⟨.arrv ["value"], "zero", none⟩ ∧
      mkFiller ⟨.nullv, none, some 2⟩ =
        .ok ⟨.arrv ["value"], "zero", some 2⟩ :=
  ⟨rfl, rfl, rfl, rfl, rfl⟩

/-- C7: zero fill, limit 1, path `"value"`, on values missing, missing,
5, missing (a missing value is a present path holding `null`; an absent
path would be skipped by the `hasIn` guard): one event per input with
values 0, missing, 5, 0. The per-path counter is 1 after the first fill,
is left at 1 by the limited second gap, resets to 0 on the valid 5, and
the fourth gap is filled again. -/
theorem filler_zero_limit_trace :
    runFiller cfgZero initFillerState
        [mkValueEvent 1 .null, mkValueEvent 2 .null,
         mkValueEvent 3 (.num 5), mkValueEvent 4 .null] =
      (⟨some (mkValueEvent 4 (.num 0)), [("value", 1)], none, []⟩,
       [[mkValueEvent 1 (.num 0)], [mkValueEvent 2 .null],
        [mkValueEvent 3 (.num 5)], [mkValueEvent 4 (.num 0)]]) ∧
      (runFiller cfgZero initFillerState
        [mkValueEvent 1 .null]).1.keyCount = [("value", 1)] ∧
      (runFiller cfgZero initFillerState
        [mkValueEvent 1 .null, mkValueEvent 2 .null]).1.keyCount =
        [("value", 1)] ∧
      (runFiller cfgZero initFillerState
        [mkValueEvent 1 .null, mkValueEvent 2 .null,
         mkValueEvent 3 (.num 5)]).1.keyCount = [("value", 0)] :=
  ⟨rfl, rfl, rfl, rfl⟩

/-- C8: pad fill with no limit on values missing, 3, missing, missing:
one event per input with values missing, 3, 3, 3. The first gap stays
missing (no previous emitted event); each later gap copies from the
recorded previous *emitted* (post-fill) event, which is why the third
gap — whose raw predecessor was itself missing — still pads to 3: the
recorded previous event after the third input is the filled event
carrying 3, as the second conjunct shows. -/
theorem filler_pad_trace :
    runFiller cfgPad initFillerState
        [mkValueEvent 1 .null, mkValueEvent 2 (.num 3),
         mkValueEvent 3 .null, mkValueEvent 4 .null] =
      (⟨some (mkValueEvent 4 (.num 3)), [("value", 2)], none, []⟩,
       [[mkValueEvent 1 .null], [mkValueEvent 2 (.num 3)],
        [mkValueEvent 3 (.num 3)], [mkValueEvent 4 (.num 3)]]) ∧
      (runFiller cfgPad initFillerState
        [mkValueEvent 1 .null, mkValueEvent 2 (.num 3),
         mkValueEvent 3 .null]).1.previousEvent =
        some (mkValueEvent 3 (.num 3)) :=
  ⟨rfl, rfl⟩

/-- C9: linear fill on the sole path `"value"` with values 5, missing,
missing, 11: the first event is emitted at once with value 5; the second
and third are queued with nothing emitted; the fourth call emits the two
queued events in arrival order with interpolated values 7 and 9
(step = (11 − 5)/3 = 2) followed by the fourth event with value 11,
leaving an empty queue and 11 as the last known good value. -/
theorem filler_linear_trace :
    runFiller cfgLinear initFillerState
        [mkValueEvent 1 (.num 5), mkValueEvent 2 .null,
         mkValueEvent 3 .null, mkValueEvent 4 (.num 11)] =
      (⟨none, [], some 11, []⟩,
       [[mkValueEvent 1 (.num 5)], [], [],
        [mkValueEvent 2 (.num 7), mkValueEvent 3 (.num 9),
         mkValueEvent 4 (.num 11)]]) := by
  have hpath : fieldPathToArray "value" = ["value"] := rfl
  have hno : ¬ ("linear" = "zero" ∨ "linear" = "pad") := by decide
  norm_num [runFiller, Filler.addEvent, linearFill, fillQueue, cfgLinear,
    initFillerState, hpath, hno, mkValueEvent, dataOf, withData, getIn, getInV,
    lookupA, isMissing, toNum, setIn, setInV, setKey, limitHit]

end Pond
